import Mathlib

/-!
Verification development for the `params` configuration subsystem and the
`netview` viewer of the emergent repository.

The Go source is embedded shallowly:

* Go `map[string]K` values are represented as association lists
  (`List (String × K)`); key uniqueness (`Nodup` on the key list) is the
  representation invariant of a Go map, and permuting an association list
  yields another representation of the same map value.
* Go byte-wise string comparison (used by `sort.StringSlice` and by
  `encoding/json`'s sorted map-key output) is modelled by `strLe` below,
  lexicographic comparison of the characters of the string.
* File I/O is modelled by small explicit outcome types (`FileRead`,
  `IOOutcome`): the Lean functions reproduce the Go control flow around
  read/write/create calls, not the operating system.
* `encoding/json` documents are modelled by the inductive `JVal`;
  marshalling follows Go's rules (struct fields in declaration order, map
  keys sorted) and unmarshalling follows Go's merge rules (a struct field
  absent from the document is left untouched; decoding an object into an
  existing map keeps entries whose keys do not occur in the document).
-/

/-! ## Go byte-wise string order -/

/-- Lexicographic comparison of character lists by code point, the model of
Go's built-in `<=` on strings (byte-wise lexicographic). -/
def lexLeChars : List Char → List Char → Bool
  | [], _ => true
  | _ :: _, [] => false
  | a :: as, b :: bs =>
    if a.toNat < b.toNat then true
    else if b.toNat < a.toNat then false
    else lexLeChars as bs

/-- Go string comparison `a <= b`. -/
def strLe (a b : String) : Bool := lexLeChars a.data b.data

/-- The order as a proposition, for use with `List.Sorted`. -/
def strLeP (a b : String) : Prop := strLe a b = true

instance : DecidableRel strLeP := fun a b => by unfold strLeP; infer_instance

theorem lexLeChars_cons_iff (x y : Char) (xs ys : List Char) :
    lexLeChars (x :: xs) (y :: ys) = true ↔
      (x.toNat < y.toNat ∨ (x.toNat = y.toNat ∧ lexLeChars xs ys = true)) := by
  simp only [lexLeChars]
  by_cases h1 : x.toNat < y.toNat
  · simp [h1]
  · by_cases h2 : y.toNat < x.toNat
    · simp [h1, h2]; omega
    · have h3 : x.toNat = y.toNat := by omega
      simp [h1, h2, h3]

theorem lexLeChars_total (a b : List Char) :
    lexLeChars a b = true ∨ lexLeChars b a = true := by
  induction a generalizing b with
  | nil => left; rfl
  | cons x xs ih =>
    cases b with
    | nil => right; rfl
    | cons y ys =>
      rw [lexLeChars_cons_iff, lexLeChars_cons_iff]
      rcases Nat.lt_trichotomy x.toNat y.toNat with h | h | h
      · exact Or.inl (Or.inl h)
      · rcases ih ys with h2 | h2
        · exact Or.inl (Or.inr ⟨h, h2⟩)
        · exact Or.inr (Or.inr ⟨h.symm, h2⟩)
      · exact Or.inr (Or.inl h)

theorem lexLeChars_trans {a b c : List Char} (hab : lexLeChars a b = true)
    (hbc : lexLeChars b c = true) : lexLeChars a c = true := by
  induction a generalizing b c with
  | nil => rfl
  | cons x xs ih =>
    cases b with
    | nil => simp [lexLeChars] at hab
    | cons y ys =>
      cases c with
      | nil => simp [lexLeChars] at hbc
      | cons z zs =>
        rw [lexLeChars_cons_iff] at hab hbc ⊢
        rcases hab with hab | ⟨hab, hab2⟩
        · rcases hbc with hbc | ⟨hbc, _⟩
          · exact Or.inl (by omega)
          · exact Or.inl (by omega)
        · rcases hbc with hbc | ⟨hbc, hbc2⟩
          · exact Or.inl (by omega)
          · exact Or.inr ⟨by omega, ih hab2 hbc2⟩

theorem lexLeChars_antisymm {a b : List Char} (hab : lexLeChars a b = true)
    (hba : lexLeChars b a = true) : a = b := by
  induction a generalizing b with
  | nil =>
    cases b with
    | nil => rfl
    | cons y ys => simp [lexLeChars] at hba
  | cons x xs ih =>
    cases b with
    | nil => simp [lexLeChars] at hab
    | cons y ys =>
      rw [lexLeChars_cons_iff] at hab hba
      rcases hab with hab | ⟨hab, hab2⟩
      · rcases hba with hba | ⟨hba, _⟩ <;> omega
      · rcases hba with hba | ⟨hba, hba2⟩
        · omega
        · have hval : x = y := Char.ext (by
            have h : x.toNat = y.toNat := hab
            simpa [Char.toNat] using UInt32.toNat.inj h)
          rw [hval, ih hab2 hba2]

instance : IsTotal String strLeP :=
  ⟨fun a b => lexLeChars_total a.data b.data⟩

instance : IsTrans String strLeP :=
  ⟨fun _ _ _ hab hbc => lexLeChars_trans hab hbc⟩

instance : IsAntisymm String strLeP :=
  ⟨fun _ _ hab hba => String.ext (lexLeChars_antisymm hab hba)⟩

/-- Model of Go's `sort.StringSlice(xs).Sort()`: a sorted permutation of
`xs` under byte-wise string order. -/
def sortStrings (xs : List String) : List String := List.insertionSort strLeP xs

/-! ## `params` package: data model

The type declarations of the `params` package (`Params`, `Sel`, `Sheet`,
`Sheets`, `Set`, `Sets`) are not part of the provided sources; their shape
is modelled from the spec (section 3) and from the field accesses in the
provided `WriteGoCode` / `OpenJSON` methods. -/

namespace params

/-- Modelled from the spec: `Params` is `map[string]string`, a mapping from
dotted field-path strings to serialized value strings, represented as an
association list. -/
abbrev Params : Type := List (String × String)

/-- Modelled from the spec: `Sel` holds a selector pattern, a description,
and a `Params` payload (fields `Sel`, `Desc`, `Params` in the Go struct). -/
structure Sel where
  sel : String
  desc : String
  params : Params
  deriving DecidableEq, Repr

/-- Modelled from the spec: `Sheet` is an ordered slice of selectors. -/
abbrev Sheet : Type := List Sel

/-- Modelled from the spec: `Sheets` is `map[string]*Sheet`, represented as
an association list from sheet name to sheet. -/
abbrev Sheets : Type := List (String × Sheet)

/-- Modelled from the spec: `Set` holds a name, a description and a
`Sheets` collection (fields `Name`, `Desc`, `Sheets` in the Go struct). -/
structure Set where
  name : String
  desc : String
  sheets : Sheets
  deriving DecidableEq, Repr

/-- Modelled from the spec: `Sets` is an ordered slice of `Set`. -/
abbrev Sets : Type := List Set

/-- Go map indexing `m[k]` with the zero value `d` for a missing key. -/
def lookupD {α : Type} (m : List (String × α)) (k : String) (d : α) : α :=
  match m with
  | [] => d
  | kv :: tl => if kv.1 = k then kv.2 else lookupD tl k d

/-- The key list of an association-list map. -/
def keysOf {α : Type} (m : List (String × α)) : List String := m.map Prod.fst

/-- Key uniqueness: the representation invariant of a Go map. -/
def KeysNodup {α : Type} (m : List (String × α)) : Prop := (keysOf m).Nodup

instance {α : Type} (m : List (String × α)) : Decidable (KeysNodup m) := by
  unfold KeysNodup; infer_instance

/-! ## `params` package: Go-code emission (`WriteGoCode`) -/

/-- `indent.TabBytes depth`: `depth` tab characters. -/
def tabs (depth : Nat) : String := String.mk (List.replicate depth '\t')

/-- Model of `fmt` `%q` quoting (escaping of special characters inside the
string is not modelled; no claim depends on it). -/
def goQuote (s : String) : String := "\"" ++ s ++ "\""

/-- The order in which `Params.WriteGoCode` emits its paths: the map's keys
collected and sorted (`sort.StringSlice(paths).Sort()`). -/
def Params.goCodePaths (pr : Params) : List String := sortStrings (keysOf pr)

/-- `Params.WriteGoCode`: emits `params.Params{`, one `"path": "value",`
line per path in sorted order (indexing the map at each sorted path), then
a closing brace. -/
def Params.writeGoCode (pr : Params) (depth : Nat) : String :=
  "params.Params\x7b\n" ++
  String.join ((Params.goCodePaths pr).map fun pt =>
    tabs (depth + 1) ++ goQuote pt ++ ": " ++ goQuote (lookupD pr pt "") ++ ",\n") ++
  tabs depth ++ "\x7d"

/-- `Sel.WriteGoCode`. -/
def Sel.writeGoCode (pr : Sel) (depth : Nat) : String :=
  "Sel: " ++ goQuote pr.sel ++ ", Desc: " ++ goQuote pr.desc ++ ",\n" ++
  tabs (depth + 1) ++ "Params: " ++ Params.writeGoCode pr.params (depth + 1)

/-- `Sheet.WriteGoCode`: selectors in slice order. -/
def Sheet.writeGoCode (pr : Sheet) (depth : Nat) : String :=
  "params.Sheet\x7b\n" ++
  String.join (pr.map fun pv =>
    tabs (depth + 1) ++ "\x7b" ++ Sel.writeGoCode pv (depth + 1) ++ "\x7d,\n") ++
  tabs depth ++ "\x7d,\n"

/-- The order in which `Sheets.WriteGoCode` emits its sheet names: the
map's keys collected and sorted. -/
def Sheets.goCodeNames (pr : Sheets) : List String := sortStrings (keysOf pr)

/-- `Sheets.WriteGoCode`: named sheets in sorted name order (indexing the
map at each sorted name). -/
def Sheets.writeGoCode (pr : Sheets) (depth : Nat) : String :=
  "params.Sheets\x7b\n" ++
  String.join ((Sheets.goCodeNames pr).map fun nm =>
    tabs (depth + 1) ++ goQuote nm ++ ": &" ++
      Sheet.writeGoCode (lookupD pr nm []) (depth + 1)) ++
  tabs depth ++ "\x7d"

/-- `Set.WriteGoCode`. -/
def Set.writeGoCode (pr : Set) (depth : Nat) : String :=
  "Name: " ++ goQuote pr.name ++ ", Desc: " ++ goQuote pr.desc ++ ", Sheets: " ++
  Sheets.writeGoCode pr.sheets depth

/-- `Sets.WriteGoCode`: sets in slice order. -/
def Sets.writeGoCode (pr : Sets) (depth : Nat) : String :=
  "params.Sets\x7b\n" ++
  String.join (pr.map fun st =>
    tabs (depth + 1) ++ "\x7b" ++ Set.writeGoCode st (depth + 1) ++ "\x7d,\n") ++
  tabs depth ++ "\x7d\n"

/-- `Sets.StringGoCode`: `WriteGoCode` into a fresh buffer at depth 0. -/
def Sets.stringGoCode (pr : Sets) : String := Sets.writeGoCode pr 0

/-- `Params.StringGoCode`. -/
def Params.stringGoCode (pr : Params) : String := Params.writeGoCode pr 0

/-! ## `params` package: JSON model -/

/-- Model of an `encoding/json` document value (only the shapes produced
and consumed by this package). -/
inductive JVal where
  | str (s : String)
  | arr (xs : List JVal)
  | obj (fields : List (String × JVal))

/-- Marshal a `Params` map: `encoding/json` emits map keys in sorted order,
indexing the map at each key. -/
def Params.toJson (pr : Params) : JVal :=
  .obj ((sortStrings (keysOf pr)).map fun k => (k, .str (lookupD pr k "")))

/-- Marshal a `Sel` struct: fields in declaration order. -/
def Sel.toJson (s : Sel) : JVal :=
  .obj [("Sel", .str s.sel), ("Desc", .str s.desc), ("Params", Params.toJson s.params)]

/-- Marshal a `Sheet` slice. -/
def Sheet.toJson (sh : Sheet) : JVal := .arr (sh.map Sel.toJson)

/-- Marshal a `Sheets` map: keys in sorted order. -/
def Sheets.toJson (shs : Sheets) : JVal :=
  .obj ((sortStrings (keysOf shs)).map fun k => (k, Sheet.toJson (lookupD shs k [])))

/-- Marshal a `Set` struct. -/
def Set.toJson (st : Set) : JVal :=
  .obj [("Name", .str st.name), ("Desc", .str st.desc), ("Sheets", Sheets.toJson st.sheets)]

/-- Marshal a `Sets` slice; this is the document written by
`Sets.SaveJSON`. -/
def Sets.toJson (ss : Sets) : JVal := .arr (ss.map Set.toJson)

/-- Go map-store `m[k] = v`: replace the entry if the key exists, else
add it. -/
def insertKV {α : Type} (m : List (String × α)) (kv : String × α) :
    List (String × α) :=
  match m with
  | [] => [kv]
  | hd :: tl => if hd.1 = kv.1 then kv :: tl else hd :: insertKV tl kv

/-- Decode the fields of a JSON object into a Go map (`encoding/json` merge
rule): each document entry is decoded from the zero value and stored,
keeping pre-existing entries whose keys do not occur in the document. -/
def decodeFieldsInto {α : Type} (dec : JVal → Option α) (old : List (String × α))
    (fs : List (String × JVal)) : Option (List (String × α)) :=
  fs.foldlM (fun acc kv => (dec kv.2).map fun a => insertKV acc (kv.1, a)) old

/-- Decode a JSON string into a Go string. -/
def decodeStr : JVal → Option String
  | .str s => some s
  | _ => none

/-- Unmarshal a JSON document into an existing `Params` map. -/
def Params.unmarshalInto (old : Params) : JVal → Option Params
  | .obj fs => decodeFieldsInto decodeStr old fs
  | _ => none

/-- Unmarshal a JSON document into an existing `Sel` (`encoding/json`
struct rule): fields present in the document overwrite, absent fields are
left untouched, and the `Params` map field is decoded into the existing
map (merge). -/
def Sel.unmarshalInto (old : Sel) : JVal → Option Sel
  | .obj fs =>
    fs.foldlM (fun acc kv =>
      if kv.1 = "Sel" then (decodeStr kv.2).map fun v => { acc with sel := v }
      else if kv.1 = "Desc" then (decodeStr kv.2).map fun v => { acc with desc := v }
      else if kv.1 = "Params" then
        (Params.unmarshalInto acc.params kv.2).map fun p => { acc with params := p }
      else some acc) old
  | _ => none

/-- The zero value of `Sel`. -/
def zeroSel : Sel := ⟨"", "", []⟩

/-- Unmarshal a JSON array into a `Sheet` slice: the slice is rebuilt with
each element decoded from its zero value. -/
def Sheet.unmarshal : JVal → Option Sheet
  | .arr xs => xs.mapM (Sel.unmarshalInto zeroSel)
  | _ => none

/-- Unmarshal a JSON document into an existing `Sheets` map (merge rule,
each sheet decoded from the zero value). -/
def Sheets.unmarshalInto (old : Sheets) : JVal → Option Sheets
  | .obj fs => decodeFieldsInto Sheet.unmarshal old fs
  | _ => none

/-- The zero value of `Set`. -/
def zeroSet : Set := ⟨"", "", []⟩

/-- Unmarshal a JSON document into an existing `Set` struct. -/
def Set.unmarshalInto (old : Set) : JVal → Option Set
  | .obj fs =>
    fs.foldlM (fun acc kv =>
      if kv.1 = "Name" then (decodeStr kv.2).map fun v => { acc with name := v }
      else if kv.1 = "Desc" then (decodeStr kv.2).map fun v => { acc with desc := v }
      else if kv.1 = "Sheets" then
        (Sheets.unmarshalInto acc.sheets kv.2).map fun s => { acc with sheets := s }
      else some acc) old
  | _ => none

/-- Unmarshal a JSON array into a `Sets` slice. -/
def Sets.unmarshal : JVal → Option Sets
  | .arr xs => xs.mapM (Set.unmarshalInto zeroSet)
  | _ => none

/-! ## `params` package: OpenJSON / SaveJSON models -/

/-- Outcome of `ioutil.ReadFile` followed by `encoding/json`'s syntax
pre-check: the read can fail, the bytes can fail to parse (in which case
`json.Unmarshal` returns before touching the receiver), or a document is
produced. -/
inductive FileRead where
  | ioErr
  | badSyntax
  | okDoc (j : JVal)

/-- `Params.OpenJSON`: resets the receiver to a fresh empty map
(`*pr = make(Params)`), then reads the file and unmarshals. Returns the
receiver's final state and whether an error was returned. On a type error
inside a syntactically valid document Go can leave a partially decoded map
behind; that partial state is not modelled (the decode-failure branch
reports the reset state) and no theorem below depends on that branch. -/
def Params.openJSON (f : FileRead) (_old : Params) : Params × Bool :=
  let pr : Params := []
  match f with
  | .ioErr => (pr, true)
  | .badSyntax => (pr, true)
  | .okDoc j =>
    match Params.unmarshalInto pr j with
    | some p => (p, false)
    | none => (pr, true)

/-- `Sel.OpenJSON`: unlike the other receivers there is no reset line, so
the document is unmarshalled into the receiver's prior value. -/
def Sel.openJSON (f : FileRead) (old : Sel) : Sel × Bool :=
  match f with
  | .ioErr => (old, true)
  | .badSyntax => (old, true)
  | .okDoc j =>
    match Sel.unmarshalInto old j with
    | some s => (s, false)
    | none => (old, true)

/-- `Sheet.OpenJSON`: resets the receiver (`*pr = make(Sheet, 0)`). -/
def Sheet.openJSON (f : FileRead) (_old : Sheet) : Sheet × Bool :=
  let pr : Sheet := []
  match f with
  | .ioErr => (pr, true)
  | .badSyntax => (pr, true)
  | .okDoc j =>
    match Sheet.unmarshal j with
    | some s => (s, false)
    | none => (pr, true)

/-- `Sheets.OpenJSON`: resets the receiver (`*pr = make(Sheets)`). -/
def Sheets.openJSON (f : FileRead) (_old : Sheets) : Sheets × Bool :=
  let pr : Sheets := []
  match f with
  | .ioErr => (pr, true)
  | .badSyntax => (pr, true)
  | .okDoc j =>
    match Sheets.unmarshalInto pr j with
    | some s => (s, false)
    | none => (pr, true)

/-- `Set.OpenJSON`: no reset line, the document is unmarshalled into the
receiver's prior value. -/
def Set.openJSON (f : FileRead) (old : Set) : Set × Bool :=
  match f with
  | .ioErr => (old, true)
  | .badSyntax => (old, true)
  | .okDoc j =>
    match Set.unmarshalInto old j with
    | some s => (s, false)
    | none => (old, true)

/-- `Sets.OpenJSON`: resets the receiver (`*pr = make(Sets, 0, 10)`). -/
def Sets.openJSON (f : FileRead) (_old : Sets) : Sets × Bool :=
  let pr : Sets := []
  match f with
  | .ioErr => (pr, true)
  | .badSyntax => (pr, true)
  | .okDoc j =>
    match Sets.unmarshal j with
    | some s => (s, false)
    | none => (pr, true)

/-- The document `Sets.SaveJSON` writes to the file
(`json.MarshalIndent(pr, ...)`). -/
def Sets.saveJSONDoc (ss : Sets) : JVal := Sets.toJson ss

/-! ## Canonical map representation -/

/-- Strictly ascending keys: the canonical (sorted, duplicate-free)
association-list representation of a Go map value. -/
def StrictKeys {α : Type} (m : List (String × α)) : Prop :=
  List.Pairwise (fun a b => strLe b.1 a.1 = false) m

instance {α : Type} (m : List (String × α)) : Decidable (StrictKeys m) := by
  unfold StrictKeys; infer_instance

theorem strLe_refl (a : String) : strLe a a = true := by
  unfold strLe
  induction a.data with
  | nil => rfl
  | cons x xs ih => rw [lexLeChars_cons_iff]; exact Or.inr ⟨rfl, ih⟩

theorem StrictKeys.sorted {α : Type} {m : List (String × α)}
    (h : StrictKeys m) : List.Sorted strLeP (keysOf m) := by
  show List.Pairwise strLeP (m.map Prod.fst)
  rw [List.pairwise_map]
  refine h.imp ?_
  intro a b hab
  rcases lexLeChars_total a.1.data b.1.data with h2 | h2
  · exact h2
  · exact absurd h2 (by simp only [strLe] at hab; simp [hab])

theorem StrictKeys.nodup {α : Type} {m : List (String × α)}
    (h : StrictKeys m) : KeysNodup m := by
  show List.Pairwise (fun a b => a ≠ b) (m.map Prod.fst)
  rw [List.pairwise_map]
  refine h.imp ?_
  intro a b hab heq
  rw [heq, strLe_refl] at hab
  exact Bool.noConfusion hab

/-- For a canonically represented map, sorting the keys is the identity. -/
theorem sortStrings_of_strictKeys {α : Type} {m : List (String × α)}
    (h : StrictKeys m) : sortStrings (keysOf m) = keysOf m :=
  List.Sorted.insertionSort_eq h.sorted

/-- Rebuilding a duplicate-free map from its own keys by indexing. -/
theorem map_keys_lookup {α β : Type} (g : α → β) (d : α) :
    ∀ (m : List (String × α)), KeysNodup m →
      (keysOf m).map (fun k => (k, g (lookupD m k d))) =
        m.map fun kv => (kv.1, g kv.2) := by
  intro m
  induction m with
  | nil => intro _; rfl
  | cons kv tl ih =>
    intro h
    unfold KeysNodup keysOf at h
    simp only [List.map_cons, List.nodup_cons] at h
    obtain ⟨hnotmem, hnd⟩ := h
    show ((kv.1 :: tl.map Prod.fst).map fun k => (k, g (lookupD (kv :: tl) k d))) =
      (kv.1, g kv.2) :: tl.map fun kv => (kv.1, g kv.2)
    rw [List.map_cons]
    have step : ∀ k ∈ tl.map Prod.fst,
        ((k, g (lookupD (kv :: tl) k d)) : String × β) = (k, g (lookupD tl k d)) := by
      intro k hk
      have hne : ¬ kv.1 = k := fun he => hnotmem (he ▸ hk)
      simp only [lookupD, if_neg hne]
    rw [List.map_congr_left step]
    have ih2 := ih hnd
    unfold keysOf at ih2
    rw [ih2]
    simp [lookupD]

/-- Storing a fresh key appends it. -/
theorem insertKV_of_fresh {α : Type} {m : List (String × α)} {k : String}
    (h : k ∉ keysOf m) (v : α) : insertKV m (k, v) = m ++ [(k, v)] := by
  induction m with
  | nil => rfl
  | cons kv tl ih =>
    unfold keysOf at h
    simp only [List.map_cons, List.mem_cons] at h
    push_neg at h
    obtain ⟨h1, h2⟩ := h
    have hne : ¬ kv.1 = k := fun he => h1 he.symm
    simp only [insertKV, if_neg hne, List.cons_append]
    rw [ih h2]

/-- Decoding object fields whose decoded entries form a duplicate-free map
disjoint from the accumulator appends that map. -/
theorem decodeFieldsInto_eq {α : Type} (dec : JVal → Option α) :
    ∀ (fs : List (String × JVal)) (m : List (String × α)) (acc : List (String × α)),
      List.Forall₂ (fun f kv => f.1 = kv.1 ∧ dec f.2 = some kv.2) fs m →
      (∀ k ∈ keysOf m, k ∉ keysOf acc) → KeysNodup m →
      decodeFieldsInto dec acc fs = some (acc ++ m) := by
  intro fs
  induction fs with
  | nil =>
    intro m acc hf _ _
    cases hf
    simp [decodeFieldsInto]
  | cons f fs' ih =>
    intro m acc hf hdisj hnd
    cases hf with
    | cons hhead htail =>
      rename_i kv m'
      obtain ⟨hk, hdec⟩ := hhead
      unfold KeysNodup keysOf at hnd
      simp only [List.map_cons, List.nodup_cons] at hnd
      obtain ⟨hkv, hnd'⟩ := hnd
      have hfresh : kv.1 ∉ keysOf acc := hdisj kv.1 (by simp [keysOf])
      have hstep : decodeFieldsInto dec acc (f :: fs') =
          decodeFieldsInto dec (insertKV acc (f.1, kv.2)) fs' := by
        simp [decodeFieldsInto, hdec]
      have hins : insertKV acc (f.1, kv.2) = acc ++ [kv] := by
        rw [hk]
        rw [insertKV_of_fresh hfresh kv.2]
      rw [hstep, hins]
      have hdisj2 : ∀ k ∈ keysOf m', k ∉ keysOf (acc ++ [kv]) := by
        intro k hkm
        simp only [keysOf, List.map_append, List.mem_append] at hkm ⊢
        push_neg
        refine ⟨fun hmem => hdisj k (by simp [keysOf, hkm]) hmem, ?_⟩
        intro hmem
        simp only [List.map_cons, List.map_nil, List.mem_singleton] at hmem
        exact hkv (hmem ▸ hkm)
      have happ := ih m' (acc ++ [kv]) htail hdisj2 hnd'
      rw [happ, List.append_assoc]
      rfl

/-! ## Well-formedness of a tree (canonical Go-map representations) -/

/-- `Params` in canonical Go-map representation. -/
def Params.WF (p : Params) : Prop := StrictKeys p

/-- `Sel` whose params map is canonical. -/
def Sel.WF (s : Sel) : Prop := Params.WF s.params

/-- `Sheet` whose selectors are well-formed. -/
def Sheet.WF (sh : Sheet) : Prop := ∀ s ∈ sh, Sel.WF s

/-- `Sheets` in canonical representation with well-formed sheets. -/
def Sheets.WF (shs : Sheets) : Prop :=
  StrictKeys shs ∧ ∀ kv ∈ shs, Sheet.WF kv.2

/-- `Set` whose sheet collection is well-formed. -/
def Set.WF (st : Set) : Prop := Sheets.WF st.sheets

/-- `Sets` whose sets are all well-formed. -/
def Sets.WF (ss : Sets) : Prop := ∀ st ∈ ss, Set.WF st

instance (p : Params) : Decidable (Params.WF p) := by unfold Params.WF; infer_instance

instance (s : Sel) : Decidable (Sel.WF s) := by unfold Sel.WF; infer_instance

instance (sh : Sheet) : Decidable (Sheet.WF sh) := by
  unfold Sheet.WF; exact List.decidableBAll _ sh

instance (shs : Sheets) : Decidable (Sheets.WF shs) := by
  unfold Sheets.WF
  have : Decidable (∀ kv ∈ shs, Sheet.WF kv.2) := List.decidableBAll _ shs
  exact instDecidableAnd

instance (st : Set) : Decidable (Set.WF st) := by unfold Set.WF; infer_instance

instance (ss : Sets) : Decidable (Sets.WF ss) := by
  unfold Sets.WF; exact List.decidableBAll _ ss

/-! ## JSON round-trip lemmas -/

theorem params_unmarshal_toJson {p : Params} (h : Params.WF p) :
    Params.unmarshalInto [] (Params.toJson p) = some p := by
  have hentries : Params.toJson p = .obj (p.map fun kv => (kv.1, .str kv.2)) := by
    unfold Params.toJson
    rw [sortStrings_of_strictKeys h, map_keys_lookup JVal.str "" p h.nodup]
  rw [hentries]
  show decodeFieldsInto decodeStr [] (p.map fun kv => (kv.1, .str kv.2)) = some p
  have hf : List.Forall₂ (fun f kv => f.1 = kv.1 ∧ decodeStr f.2 = some kv.2)
      (p.map fun kv => (kv.1, .str kv.2)) p := by
    rw [List.forall₂_map_left_iff]
    rw [List.forall₂_same]
    intro kv _
    exact ⟨rfl, rfl⟩
  simpa using decodeFieldsInto_eq decodeStr _ p [] hf (by simp [keysOf]) h.nodup

theorem sel_unmarshal_toJson {s : Sel} (h : Sel.WF s) :
    Sel.unmarshalInto zeroSel (Sel.toJson s) = some s := by
  obtain ⟨a, b, p⟩ := s
  have hp : Params.WF p := h
  simp only [Sel.toJson, Sel.unmarshalInto]
  simp [decodeStr, zeroSel, params_unmarshal_toJson hp]

theorem sheet_unmarshal_toJson {sh : Sheet} (h : Sheet.WF sh) :
    Sheet.unmarshal (Sheet.toJson sh) = some sh := by
  simp only [Sheet.toJson, Sheet.unmarshal]
  revert h
  induction sh with
  | nil => intro _; rfl
  | cons s tl ih =>
    intro h
    have hs : Sel.WF s := h s (by simp)
    have htl : Sheet.WF tl := fun x hx => h x (by simp [hx])
    rw [List.map_cons, List.mapM_cons, sel_unmarshal_toJson hs, ih htl]
    rfl

theorem sheets_unmarshal_toJson {shs : Sheets} (h : Sheets.WF shs) :
    Sheets.unmarshalInto [] (Sheets.toJson shs) = some shs := by
  obtain ⟨hsk, hwf⟩ := h
  have hentries : Sheets.toJson shs = .obj (shs.map fun kv => (kv.1, Sheet.toJson kv.2)) := by
    unfold Sheets.toJson
    rw [sortStrings_of_strictKeys hsk, map_keys_lookup Sheet.toJson [] shs hsk.nodup]
  rw [hentries]
  show decodeFieldsInto Sheet.unmarshal [] (shs.map fun kv => (kv.1, Sheet.toJson kv.2)) = some shs
  have hf : List.Forall₂ (fun f kv => f.1 = kv.1 ∧ Sheet.unmarshal f.2 = some kv.2)
      (shs.map fun kv => (kv.1, Sheet.toJson kv.2)) shs := by
    rw [List.forall₂_map_left_iff, List.forall₂_same]
    intro kv hkv
    exact ⟨rfl, sheet_unmarshal_toJson (hwf kv hkv)⟩
  simpa using decodeFieldsInto_eq Sheet.unmarshal _ shs [] hf (by simp [keysOf]) hsk.nodup

theorem set_unmarshal_toJson {st : Set} (h : Set.WF st) :
    Set.unmarshalInto zeroSet (Set.toJson st) = some st := by
  obtain ⟨a, b, shs⟩ := st
  have hs : Sheets.WF shs := h
  simp only [Set.toJson, Set.unmarshalInto]
  simp [decodeStr, zeroSet, sheets_unmarshal_toJson hs]

theorem sets_unmarshal_toJson {ss : Sets} (h : Sets.WF ss) :
    Sets.unmarshal (Sets.toJson ss) = some ss := by
  simp only [Sets.toJson, Sets.unmarshal]
  revert h
  induction ss with
  | nil => intro _; rfl
  | cons st tl ih =>
    intro h
    have hst : Set.WF st := h st (by simp)
    have htl : Sets.WF tl := fun x hx => h x (by simp [hx])
    rw [List.map_cons, List.mapM_cons, set_unmarshal_toJson hst, ih htl]
    rfl

end params

/-- C4: `Params.WriteGoCode` emits its path/value pairs sorted
lexicographically by path (byte-wise string order), and `Sheets.WriteGoCode`
emits its named sheets sorted lexicographically by sheet name; in both
cases the emitted key sequence is a permutation of the map's keys, for
every association-list representation of the map, i.e. regardless of map
insertion or iteration order. -/
theorem c4_gocode_sorted_emission (pr : params.Params) (sh : params.Sheets) :
    List.Sorted strLeP (params.Params.goCodePaths pr) ∧
    (params.Params.goCodePaths pr).Perm (params.keysOf pr) ∧
    List.Sorted strLeP (params.Sheets.goCodeNames sh) ∧
    (params.Sheets.goCodeNames sh).Perm (params.keysOf sh) := by
  refine ⟨?_, ?_, ?_, ?_⟩
  · exact List.sorted_insertionSort strLeP (params.keysOf pr)
  · exact List.perm_insertionSort strLeP (params.keysOf pr)
  · exact List.sorted_insertionSort strLeP (params.keysOf sh)
  · exact List.perm_insertionSort strLeP (params.keysOf sh)

/-! ## `params` package: SaveJSON / SaveGoCode error-flow models -/

namespace params

/-- Outcome of one file-system operation. -/
inductive IOOutcome where
  | ok
  | fail
  deriving DecidableEq

/-- Environment of a `SaveGoCode` call: whether `os.Create` succeeds, and
whether writes to the created file succeed. -/
structure SaveEnv where
  create : IOOutcome
  write : IOOutcome
  deriving DecidableEq

/-- One `w.Write` call: appends to the file on success; the second
component is the error result, which the caller may inspect or discard. -/
def writeOp (env : SaveEnv) (buf : String) (s : String) : String × Bool :=
  match env.write with
  | .ok => (buf ++ s, false)
  | .fail => (buf, true)

/-- `WriteGoPrelude`: four `w.Write` calls whose error results are
discarded (the Go code ignores every `Write` return value). -/
def WriteGoPrelude (env : SaveEnv) (buf : String) (varNm : String) : String :=
  let r1 := writeOp env buf "// File generated by params.SaveGoCode\n\n"
  let r2 := writeOp env r1.1 "package main\n\n"
  let r3 := writeOp env r2.1 "import \"github.com/emer/emergent/params\""
  let r4 := writeOp env r3.1 ("\n\nvar " ++ varNm ++ " = ")
  r4.1

/-- `Params.SaveGoCode`: if `os.Create` fails its error is returned;
otherwise the prelude and the `WriteGoCode` body are written with every
`Write` error discarded (the body's many writes are modelled as one
`writeOp` of the emitted string, which preserves the discarding), and the
function returns nil. Returns (returned error, file content). All six
receiver types share this control flow. -/
def Params.saveGoCode (env : SaveEnv) (pr : Params) : Option String × String :=
  match env.create with
  | .fail => (some "open failed", "")
  | .ok =>
    let b1 := WriteGoPrelude env "" "SavedParams"
    let r2 := writeOp env b1 (Params.writeGoCode pr 0)
    (none, r2.1)

/-- `Params.SaveJSON`: `json.MarshalIndent` (which cannot fail for these
map/struct/slice-of-string types), then `ioutil.WriteFile`, whose error is
returned to the caller unconditionally. All six receiver types share this
control flow. -/
def Params.saveJSON (writeFile : IOOutcome) (_pr : Params) : Option String :=
  match writeFile with
  | .fail => some "write failed"
  | .ok => none

/-- Whether some I/O operation performed during a `SaveGoCode` run failed:
either the create failed, or the create succeeded and the subsequent
writes failed. -/
def SaveEnv.ioFailed (env : SaveEnv) : Bool :=
  match env.create with
  | .fail => true
  | .ok =>
    match env.write with
    | .fail => true
    | .ok => false

end params

/-- C2 counterexample: a `SaveGoCode` run in which `os.Create` succeeds but
the subsequent file writes fail performs a failing I/O operation yet
returns nil (no error): the write failure is silently swallowed, refuting
the claim that no I/O failure is ever swallowed by a Codec save
operation. -/
theorem c2_counterexample :
    params.SaveEnv.ioFailed ⟨.ok, .fail⟩ = true ∧
    (params.Params.saveGoCode ⟨.ok, .fail⟩ [("A", "1")]).1 = none := by
  decide

/-- C2 amended: `SaveJSON` returns a non-nil error exactly when the
`WriteFile` operation fails, but `SaveGoCode` returns a non-nil error only
when `os.Create` fails — errors of the writes performed after a successful
create are discarded and the call returns nil. -/
theorem c2_amended :
    (∀ (w : params.IOOutcome) (pr : params.Params),
      params.Params.saveJSON w pr = none ↔ w = .ok) ∧
    (∀ (env : params.SaveEnv) (pr : params.Params),
      (params.Params.saveGoCode env pr).1 = none ↔ env.create = .ok) := by
  constructor
  · intro w pr
    cases w <;> simp [params.Params.saveJSON]
  · intro env pr
    obtain ⟨c, w⟩ := env
    cases c <;> simp [params.Params.saveGoCode]

/-- C1 counterexample: `Sel.OpenJSON` has no reset line, so loading a
document whose `Params` object holds only the key `"B"` into a receiver
already holding the entry `("A", "1")` yields a merged map with both
entries, while the same load into an empty receiver yields only `"B"`:
the result is a merge of old and new entries, not a full replace. -/
theorem c1_counterexample :
    (params.Sel.openJSON (.okDoc (.obj [("Params", .obj [("B", .str "2")])]))
      ⟨"#hidden", "old", [("A", "1")]⟩).1.params = [("A", "1"), ("B", "2")] ∧
    (params.Sel.openJSON (.okDoc (.obj [("Params", .obj [("B", .str "2")])]))
      ⟨"", "", []⟩).1.params = [("B", "2")] := by
  decide

/-- C1 amended: `Params`, `Sheet`, `Sheets` and `Sets` `OpenJSON` reset the
receiver before populating it, so their result is independent of the prior
value (full replace); `Sel` and `Set` `OpenJSON` do not reset, so the prior
value persists except where the document overwrites it: an empty document
leaves the receiver unchanged, and a `Params` entry with a fresh key is
added to the receiver's existing map (merge). -/
theorem c1_amended :
    (∀ (f : params.FileRead) (o1 o2 : params.Params),
      params.Params.openJSON f o1 = params.Params.openJSON f o2) ∧
    (∀ (f : params.FileRead) (o1 o2 : params.Sheet),
      params.Sheet.openJSON f o1 = params.Sheet.openJSON f o2) ∧
    (∀ (f : params.FileRead) (o1 o2 : params.Sheets),
      params.Sheets.openJSON f o1 = params.Sheets.openJSON f o2) ∧
    (∀ (f : params.FileRead) (o1 o2 : params.Sets),
      params.Sets.openJSON f o1 = params.Sets.openJSON f o2) ∧
    (∀ old : params.Sel, params.Sel.openJSON (.okDoc (.obj [])) old = (old, false)) ∧
    (∀ old : params.Set, params.Set.openJSON (.okDoc (.obj [])) old = (old, false)) ∧
    (∀ (old : params.Sel) (k v : String), k ∉ params.keysOf old.params →
      params.Sel.openJSON (.okDoc (.obj [("Params", .obj [(k, .str v)])])) old =
        ({ old with params := old.params ++ [(k, v)] }, false)) := by
  refine ⟨fun f o1 o2 => rfl, fun f o1 o2 => rfl, fun f o1 o2 => rfl, fun f o1 o2 => rfl,
    fun old => rfl, fun old => rfl, ?_⟩
  intro old k v hk
  have hout : params.Sel.unmarshalInto old (.obj [("Params", .obj [(k, .str v)])]) =
      some { old with params := old.params ++ [(k, v)] } := by
    simp [params.Sel.unmarshalInto, params.Params.unmarshalInto, params.decodeFieldsInto,
      params.decodeStr, params.insertKV_of_fresh hk]
  simp [params.Sel.openJSON, hout]

/-- C1 amended, witness: a concrete merging load into a `Sel` receiver. -/
theorem c1_amended_witness :
    params.Sel.openJSON (.okDoc (.obj [("Params", .obj [("B", .str "2")])]))
      ⟨"#hidden", "old", [("A", "1")]⟩ = (⟨"#hidden", "old", [("A", "1"), ("B", "2")]⟩, false) :=
  c1_amended.2.2.2.2.2.2 ⟨"#hidden", "old", [("A", "1")]⟩ "B" "2" (by decide)

/-- C6 counterexample: a failed read in `Sel.OpenJSON` returns an error but
leaves the receiver holding its full prior value (there is no reset line),
not the cleared/reset empty state the claim asserts. -/
theorem c6_counterexample :
    (params.Sel.openJSON .ioErr ⟨"#hidden", "old", [("A", "1")]⟩).2 = true ∧
    (params.Sel.openJSON .ioErr ⟨"#hidden", "old", [("A", "1")]⟩).1 =
      ⟨"#hidden", "old", [("A", "1")]⟩ ∧
    (params.Sel.openJSON .ioErr ⟨"#hidden", "old", [("A", "1")]⟩).1 ≠
      params.zeroSel := by
  decide

/-- C6 amended: a load that fails to read the file or to parse the
document returns an error, and: for `Params`, `Sheet`, `Sheets` and `Sets`
the receiver is left in the freshly reset empty state (no mixture of old
and new entries), while for `Sel` and `Set` the receiver keeps its prior
value unchanged. -/
theorem c6_amended (f : params.FileRead) (hf : f = .ioErr ∨ f = .badSyntax) :
    (∀ old : params.Params, params.Params.openJSON f old = ([], true)) ∧
    (∀ old : params.Sheet, params.Sheet.openJSON f old = ([], true)) ∧
    (∀ old : params.Sheets, params.Sheets.openJSON f old = ([], true)) ∧
    (∀ old : params.Sets, params.Sets.openJSON f old = ([], true)) ∧
    (∀ old : params.Sel, params.Sel.openJSON f old = (old, true)) ∧
    (∀ old : params.Set, params.Set.openJSON f old = (old, true)) := by
  rcases hf with h | h <;> subst h <;>
    exact ⟨fun _ => rfl, fun _ => rfl, fun _ => rfl, fun _ => rfl, fun _ => rfl, fun _ => rfl⟩

/-- C6 amended, witness: concrete failed loads at each behavior class. -/
theorem c6_amended_witness :
    params.Params.openJSON .ioErr [("X", "9")] = ([], true) ∧
    params.Sel.openJSON .ioErr ⟨"s", "d", [("X", "9")]⟩ = (⟨"s", "d", [("X", "9")]⟩, true) :=
  ⟨(c6_amended .ioErr (Or.inl rfl)).1 [("X", "9")],
   (c6_amended .ioErr (Or.inl rfl)).2.2.2.2.1 ⟨"s", "d", [("X", "9")]⟩⟩

/-- The concrete `Sets` tree used as the C3 round-trip witness. -/
def c3exampleSets : params.Sets :=
  [⟨"Base", "base configuration",
    [("Network",
      [⟨"Layer", "all layers", [("Learn.Lrate", ".05"), ("Prjn.WtScale", "1")]⟩])]⟩]

/-- C3: serializing any `Sets` value with `SaveJSON` and deserializing the
produced document with `OpenJSON` yields exactly the original tree — equal
set names, descriptions, sheet names, selector patterns and all path/value
pairs — for every `Sets` value whose map-typed nodes are in canonical
Go-map representation (sorted, duplicate-free keys: the association-list
image of a Go map value), regardless of the receiver's prior value. -/
theorem c3_save_open_roundtrip (ss old : params.Sets) (h : params.Sets.WF ss) :
    params.Sets.openJSON (.okDoc (params.Sets.saveJSONDoc ss)) old = (ss, false) := by
  have hu := params.sets_unmarshal_toJson h
  simp [params.Sets.openJSON, params.Sets.saveJSONDoc, hu]

/-- C3 witness: the round trip at a concrete two-level tree. -/
theorem c3_save_open_roundtrip_witness :
    params.Sets.WF c3exampleSets ∧
    params.Sets.openJSON (.okDoc (params.Sets.saveJSONDoc c3exampleSets)) [] =
      (c3exampleSets, false) :=
  ⟨by decide, c3_save_open_roundtrip c3exampleSets [] (by decide)⟩

/-! ## Determinism of Go-code emission (C5)

A Go map has no intrinsic entry order; two runs of the serializer over the
same unchanged `Sets` value may iterate every map in different orders. In
the association-list embedding this is captured by the relations below:
two representations are related exactly when they denote the same Go value
(equal everywhere except for the order of map entries). -/

namespace params

/-- Two `Sel` representations of the same Go value. -/
def Sel.SameVal (a b : Sel) : Prop :=
  a.sel = b.sel ∧ a.desc = b.desc ∧ a.params.Perm b.params

/-- Two `Sheet` representations of the same Go value. -/
def Sheet.SameVal : Sheet → Sheet → Prop := List.Forall₂ Sel.SameVal

/-- Two `Sheets` representations of the same Go map value: entries
permuted, each sheet representing the same value. -/
def Sheets.SameMap (s t : Sheets) : Prop :=
  ∃ u, s.Perm u ∧ List.Forall₂ (fun x y => x.1 = y.1 ∧ Sheet.SameVal x.2 y.2) u t

/-- Two `Set` representations of the same Go value. -/
def Set.SameVal (a b : Set) : Prop :=
  a.name = b.name ∧ a.desc = b.desc ∧ Sheets.SameMap a.sheets b.sheets

/-- Two `Sets` representations of the same Go value. -/
def Sets.SameVal : Sets → Sets → Prop := List.Forall₂ Set.SameVal

/-- All `Params` maps inside a sheet satisfy key uniqueness. -/
def Sheet.MapsOK (sh : Sheet) : Prop := ∀ s ∈ sh, KeysNodup s.params

/-- The sheet map and all nested params maps satisfy key uniqueness. -/
def Sheets.MapsOK (shs : Sheets) : Prop :=
  KeysNodup shs ∧ ∀ kv ∈ shs, Sheet.MapsOK kv.2

/-- All maps inside a set satisfy key uniqueness. -/
def Set.MapsOK (st : Set) : Prop := Sheets.MapsOK st.sheets

/-- All maps inside a set collection satisfy key uniqueness. -/
def Sets.MapsOK (ss : Sets) : Prop := ∀ st ∈ ss, Set.MapsOK st

instance (sh : Sheet) : Decidable (Sheet.MapsOK sh) := by
  unfold Sheet.MapsOK; exact List.decidableBAll _ sh

instance (shs : Sheets) : Decidable (Sheets.MapsOK shs) := by
  unfold Sheets.MapsOK
  have : Decidable (∀ kv ∈ shs, Sheet.MapsOK kv.2) := List.decidableBAll _ shs
  exact instDecidableAnd

instance (st : Set) : Decidable (Set.MapsOK st) := by
  unfold Set.MapsOK; infer_instance

instance (ss : Sets) : Decidable (Sets.MapsOK ss) := by
  unfold Sets.MapsOK; exact List.decidableBAll _ ss

theorem lookupD_of_mem {α : Type} {m : List (String × α)} (hnd : KeysNodup m)
    {k : String} {v : α} (hm : (k, v) ∈ m) (d : α) : lookupD m k d = v := by
  induction m with
  | nil => cases hm
  | cons kv tl ih =>
    unfold KeysNodup keysOf at hnd
    simp only [List.map_cons, List.nodup_cons] at hnd
    obtain ⟨hhd, htl⟩ := hnd
    rcases List.mem_cons.mp hm with he | hmem
    · rw [← he]
      simp [lookupD]
    · have hne : ¬ kv.1 = k := by
        intro hkk
        apply hhd
        rw [hkk]
        exact List.mem_map.mpr ⟨(k, v), hmem, rfl⟩
      simp only [lookupD, if_neg hne]
      exact ih htl hmem

theorem lookupD_of_not_mem {α : Type} {m : List (String × α)} {k : String}
    (h : k ∉ keysOf m) (d : α) : lookupD m k d = d := by
  induction m with
  | nil => rfl
  | cons kv tl ih =>
    unfold keysOf at h
    simp only [List.map_cons, List.mem_cons] at h
    push_neg at h
    have hne : ¬ kv.1 = k := fun he => h.1 he.symm
    simp only [lookupD, if_neg hne]
    exact ih (by unfold keysOf; exact h.2)

theorem keysNodup_perm {α : Type} {m m' : List (String × α)} (hp : m.Perm m')
    (hnd : KeysNodup m) : KeysNodup m' :=
  ((hp.map Prod.fst).nodup_iff).mp hnd

theorem lookupD_perm {α : Type} {m m' : List (String × α)} (hp : m.Perm m')
    (hnd : KeysNodup m) (k : String) (d : α) : lookupD m k d = lookupD m' k d := by
  by_cases hk : k ∈ keysOf m
  · obtain ⟨kv, hkv, hfst⟩ := List.mem_map.mp hk
    have hkv2 : kv = (k, kv.2) := by
      obtain ⟨k0, v0⟩ := kv
      simp only at hfst
      rw [hfst]
    have hmem : (k, kv.2) ∈ m := hkv2 ▸ hkv
    rw [lookupD_of_mem hnd hmem d,
      lookupD_of_mem (keysNodup_perm hp hnd) (hp.mem_iff.mp hmem) d]
  · have hk2 : k ∉ keysOf m' := fun hc => hk (((hp.map Prod.fst).mem_iff).mpr hc)
    rw [lookupD_of_not_mem hk d, lookupD_of_not_mem hk2 d]

theorem sortStrings_perm_eq {xs ys : List String} (h : xs.Perm ys) :
    sortStrings xs = sortStrings ys :=
  List.eq_of_perm_of_sorted
    ((List.perm_insertionSort strLeP xs).trans
      (h.trans (List.perm_insertionSort strLeP ys).symm))
    (List.sorted_insertionSort strLeP xs) (List.sorted_insertionSort strLeP ys)

theorem params_writeGoCode_sameMap {p q : Params} (h : p.Perm q) (hnd : KeysNodup p)
    (depth : Nat) : Params.writeGoCode p depth = Params.writeGoCode q depth := by
  unfold Params.writeGoCode Params.goCodePaths
  have hkeys : sortStrings (keysOf p) = sortStrings (keysOf q) :=
    sortStrings_perm_eq (h.map Prod.fst)
  rw [hkeys]
  have hfun : (fun pt =>
        tabs (depth + 1) ++ goQuote pt ++ ": " ++ goQuote (lookupD p pt "") ++ ",\n")
      = (fun pt =>
        tabs (depth + 1) ++ goQuote pt ++ ": " ++ goQuote (lookupD q pt "") ++ ",\n") := by
    funext pt
    rw [lookupD_perm h hnd pt ""]
  rw [hfun]

theorem sel_writeGoCode_sameVal {a b : Sel} (h : Sel.SameVal a b)
    (hnd : KeysNodup a.params) (depth : Nat) :
    Sel.writeGoCode a depth = Sel.writeGoCode b depth := by
  obtain ⟨h1, h2, h3⟩ := h
  unfold Sel.writeGoCode
  rw [h1, h2, params_writeGoCode_sameMap h3 hnd]

theorem sheet_writeGoCode_sameVal {a b : Sheet} (h : Sheet.SameVal a b)
    (hok : Sheet.MapsOK a) (depth : Nat) :
    Sheet.writeGoCode a depth = Sheet.writeGoCode b depth := by
  unfold Sheet.writeGoCode
  have hmap : a.map (fun pv => tabs (depth + 1) ++ "\x7b" ++ Sel.writeGoCode pv (depth + 1) ++ "\x7d,\n")
      = b.map (fun pv => tabs (depth + 1) ++ "\x7b" ++ Sel.writeGoCode pv (depth + 1) ++ "\x7d,\n") := by
    revert hok
    induction h with
    | nil => intro _; rfl
    | cons hab htail ih =>
      intro hok
      simp only [List.map_cons]
      rw [sel_writeGoCode_sameVal hab (hok _ (List.mem_cons_self _ _)),
        ih (fun s hs => hok s (List.mem_cons_of_mem _ hs))]
  rw [hmap]

theorem forall2_keys_eq {α : Type} {R : α → α → Prop} {u t : List (String × α)}
    (h : List.Forall₂ (fun x y => x.1 = y.1 ∧ R x.2 y.2) u t) :
    keysOf u = keysOf t := by
  induction h with
  | nil => rfl
  | cons hxy htail ih =>
    unfold keysOf at ih ⊢
    simp only [List.map_cons]
    rw [hxy.1, ih]

theorem forall2_lookupD {α : Type} {R : α → α → Prop} {u t : List (String × α)}
    {d : α} (hd : R d d)
    (h : List.Forall₂ (fun x y => x.1 = y.1 ∧ R x.2 y.2) u t) (k : String) :
    R (lookupD u k d) (lookupD t k d) := by
  induction h with
  | nil => exact hd
  | cons hxy htail ih =>
    rename_i x y l₁ l₂
    by_cases hk : x.1 = k
    · have hk2 : y.1 = k := by rw [← hxy.1]; exact hk
      simp only [lookupD, if_pos hk, if_pos hk2]
      exact hxy.2
    · have hk2 : ¬ y.1 = k := by rw [← hxy.1]; exact hk
      simp only [lookupD, if_neg hk, if_neg hk2]
      exact ih

theorem lookupD_default_or_mem {α : Type} (m : List (String × α)) (k : String) (d : α) :
    lookupD m k d = d ∨ ∃ kv ∈ m, lookupD m k d = kv.2 := by
  induction m with
  | nil => exact Or.inl rfl
  | cons kv tl ih =>
    by_cases hk : kv.1 = k
    · exact Or.inr ⟨kv, by simp, by simp [lookupD, if_pos hk]⟩
    · rcases ih with h | ⟨kv2, hm, he⟩
      · exact Or.inl (by simp [lookupD, if_neg hk, h])
      · exact Or.inr ⟨kv2, by simp [hm], by simp [lookupD, if_neg hk, he]⟩

theorem Sheets.MapsOK.lookup {shs : Sheets} (h : Sheets.MapsOK shs) (nm : String) :
    Sheet.MapsOK (lookupD shs nm []) := by
  rcases lookupD_default_or_mem shs nm [] with he | ⟨kv, hm, he⟩
  · rw [he]; intro s hs; cases hs
  · rw [he]; exact h.2 kv hm

theorem sheets_writeGoCode_sameMap {s t : Sheets} (h : Sheets.SameMap s t)
    (hok : Sheets.MapsOK s) (depth : Nat) :
    Sheets.writeGoCode s depth = Sheets.writeGoCode t depth := by
  obtain ⟨u, hsu, hut⟩ := h
  have hoku : Sheets.MapsOK u :=
    ⟨keysNodup_perm hsu hok.1, fun kv hkv => hok.2 kv (hsu.mem_iff.mpr hkv)⟩
  unfold Sheets.writeGoCode Sheets.goCodeNames
  have hkeys : sortStrings (keysOf s) = sortStrings (keysOf t) := by
    apply sortStrings_perm_eq
    have h1 : (keysOf s).Perm (keysOf u) := hsu.map Prod.fst
    rw [forall2_keys_eq hut] at h1
    exact h1
  rw [hkeys]
  have hfun : ∀ nm ∈ sortStrings (keysOf t),
      tabs (depth + 1) ++ goQuote nm ++ ": &" ++ Sheet.writeGoCode (lookupD s nm []) (depth + 1)
      = tabs (depth + 1) ++ goQuote nm ++ ": &" ++
          Sheet.writeGoCode (lookupD t nm []) (depth + 1) := by
    intro nm _
    have h1 : lookupD s nm [] = lookupD u nm [] := lookupD_perm hsu hok.1 nm []
    have h2 : Sheet.SameVal (lookupD u nm []) (lookupD t nm []) :=
      forall2_lookupD List.Forall₂.nil hut nm
    rw [h1, sheet_writeGoCode_sameVal h2 (hoku.lookup nm)]
  rw [List.map_congr_left hfun]

theorem set_writeGoCode_sameVal {a b : Set} (h : Set.SameVal a b)
    (hok : Set.MapsOK a) (depth : Nat) :
    Set.writeGoCode a depth = Set.writeGoCode b depth := by
  obtain ⟨h1, h2, h3⟩ := h
  unfold Set.writeGoCode
  rw [h1, h2, sheets_writeGoCode_sameMap h3 hok]

theorem sets_writeGoCode_sameVal {a b : Sets} (h : Sets.SameVal a b)
    (hok : Sets.MapsOK a) (depth : Nat) :
    Sets.writeGoCode a depth = Sets.writeGoCode b depth := by
  unfold Sets.writeGoCode
  have hmap : a.map (fun st => tabs (depth + 1) ++ "\x7b" ++ Set.writeGoCode st (depth + 1) ++ "\x7d,\n")
      = b.map (fun st => tabs (depth + 1) ++ "\x7b" ++ Set.writeGoCode st (depth + 1) ++ "\x7d,\n") := by
    revert hok
    induction h with
    | nil => intro _; rfl
    | cons hab htail ih =>
      intro hok
      simp only [List.map_cons]
      rw [set_writeGoCode_sameVal hab (hok _ (List.mem_cons_self _ _)),
        ih (fun s hs => hok s (List.mem_cons_of_mem _ hs))]
  rw [hmap]

theorem params_toJson_sameMap {p q : Params} (h : p.Perm q) (hnd : KeysNodup p) :
    Params.toJson p = Params.toJson q := by
  unfold Params.toJson
  have hkeys : sortStrings (keysOf p) = sortStrings (keysOf q) :=
    sortStrings_perm_eq (h.map Prod.fst)
  rw [hkeys]
  have hfun : (fun k => ((k, JVal.str (lookupD p k "")) : String × JVal))
      = fun k => (k, JVal.str (lookupD q k "")) := by
    funext k
    rw [lookupD_perm h hnd k ""]
  rw [hfun]

theorem sel_toJson_sameVal {a b : Sel} (h : Sel.SameVal a b)
    (hnd : KeysNodup a.params) : Sel.toJson a = Sel.toJson b := by
  obtain ⟨h1, h2, h3⟩ := h
  unfold Sel.toJson
  rw [h1, h2, params_toJson_sameMap h3 hnd]

theorem sheet_toJson_sameVal {a b : Sheet} (h : Sheet.SameVal a b)
    (hok : Sheet.MapsOK a) : Sheet.toJson a = Sheet.toJson b := by
  unfold Sheet.toJson
  have hmap : a.map Sel.toJson = b.map Sel.toJson := by
    revert hok
    induction h with
    | nil => intro _; rfl
    | cons hab htail ih =>
      intro hok
      simp only [List.map_cons]
      rw [sel_toJson_sameVal hab (hok _ (List.mem_cons_self _ _)),
        ih (fun s hs => hok s (List.mem_cons_of_mem _ hs))]
  rw [hmap]

theorem sheets_toJson_sameMap {s t : Sheets} (h : Sheets.SameMap s t)
    (hok : Sheets.MapsOK s) : Sheets.toJson s = Sheets.toJson t := by
  obtain ⟨u, hsu, hut⟩ := h
  have hoku : Sheets.MapsOK u :=
    ⟨keysNodup_perm hsu hok.1, fun kv hkv => hok.2 kv (hsu.mem_iff.mpr hkv)⟩
  unfold Sheets.toJson
  have hkeys : sortStrings (keysOf s) = sortStrings (keysOf t) := by
    apply sortStrings_perm_eq
    have h1 : (keysOf s).Perm (keysOf u) := hsu.map Prod.fst
    rw [forall2_keys_eq hut] at h1
    exact h1
  rw [hkeys]
  have hfun : ∀ nm ∈ sortStrings (keysOf t),
      ((nm, Sheet.toJson (lookupD s nm [])) : String × JVal)
      = (nm, Sheet.toJson (lookupD t nm [])) := by
    intro nm _
    have h1 : lookupD s nm [] = lookupD u nm [] := lookupD_perm hsu hok.1 nm []
    have h2 : Sheet.SameVal (lookupD u nm []) (lookupD t nm []) :=
      forall2_lookupD List.Forall₂.nil hut nm
    rw [h1, sheet_toJson_sameVal h2 (hoku.lookup nm)]
  rw [List.map_congr_left hfun]

theorem set_toJson_sameVal {a b : Set} (h : Set.SameVal a b)
    (hok : Set.MapsOK a) : Set.toJson a = Set.toJson b := by
  obtain ⟨h1, h2, h3⟩ := h
  unfold Set.toJson
  rw [h1, h2, sheets_toJson_sameMap h3 hok]

theorem sets_toJson_sameVal {a b : Sets} (h : Sets.SameVal a b)
    (hok : Sets.MapsOK a) : Sets.toJson a = Sets.toJson b := by
  unfold Sets.toJson
  have hmap : a.map Set.toJson = b.map Set.toJson := by
    revert hok
    induction h with
    | nil => intro _; rfl
    | cons hab htail ih =>
      intro hok
      simp only [List.map_cons]
      rw [set_toJson_sameVal hab (hok _ (List.mem_cons_self _ _)),
        ih (fun s hs => hok s (List.mem_cons_of_mem _ hs))]
  rw [hmap]

end params

/-- C5: serialization is deterministic as a two-run property: two
serializer runs over the same unchanged `Sets` value produce byte-identical
output, both for `StringGoCode` and for the document marshalled by
`SaveJSON`. A Go map fixes no entry order, so two runs see the same value
through possibly different iteration orders of every map; accordingly, any
two association-list representations of the same `Sets` value (`SameVal`:
identical everywhere except the order of map entries, with `MapsOK`: every
map's keys unique) emit exactly the same Go-code string and exactly the
same marshalled document. -/
theorem c5_serializer_deterministic (s t : params.Sets)
    (h : params.Sets.SameVal s t) (hs : params.Sets.MapsOK s) :
    params.Sets.stringGoCode s = params.Sets.stringGoCode t ∧
    params.Sets.saveJSONDoc s = params.Sets.saveJSONDoc t :=
  ⟨params.sets_writeGoCode_sameVal h hs 0, params.sets_toJson_sameVal h hs⟩

/-- C5 witness: the same concrete `Sets` value, represented with its one
params map in two different entry orders, serializes to identical Go-code
bytes and to an identical marshalled document. -/
theorem c5_serializer_deterministic_witness :
    params.Sets.stringGoCode
      [⟨"Base", "d", [("Network", [⟨"Layer", "", [("A", "1"), ("B", "2")]⟩])]⟩] =
    params.Sets.stringGoCode
      [⟨"Base", "d", [("Network", [⟨"Layer", "", [("B", "2"), ("A", "1")]⟩])]⟩] ∧
    params.Sets.saveJSONDoc
      [⟨"Base", "d", [("Network", [⟨"Layer", "", [("A", "1"), ("B", "2")]⟩])]⟩] =
    params.Sets.saveJSONDoc
      [⟨"Base", "d", [("Network", [⟨"Layer", "", [("B", "2"), ("A", "1")]⟩])]⟩] :=
  c5_serializer_deterministic _ _
    (List.Forall₂.cons
      ⟨rfl, rfl, ⟨[("Network", [⟨"Layer", "", [("A", "1"), ("B", "2")]⟩])],
        List.Perm.refl _,
        List.Forall₂.cons
          ⟨rfl, List.Forall₂.cons ⟨rfl, rfl, by decide⟩ List.Forall₂.nil⟩
          List.Forall₂.nil⟩⟩
      List.Forall₂.nil)
    (by decide)

/-! ## Applier (C7)

The Apply implementation is not among the provided sources (only the
`Layer.ApplyParams` interface declaration and the spec describe it), so the
engine is modelled from the spec, sections 4.1-4.2 and 7(d). -/

namespace params

/-- Modelled from the spec: a styleable target exposes a type name, an
instance name, a class set, and path-addressed settable leaf fields
(sections 4.1 and 6). A path resolves iff it is a key of `fields`;
path-resolution and type-conversion failure form one failure class
(section 7(d)), modelled as the absence of the path. -/
structure Target where
  typeName : String
  name : String
  classes : List String
  fields : List (String × String)
  deriving DecidableEq, Repr

/-- Modelled from the spec: selector matching (section 3): `.ident`
matches one of the target's class tags, `#ident` matches the instance
name, and a bare identifier matches the type name. -/
def selMatch (pat : String) (t : Target) : Bool :=
  match pat.data with
  | '.' :: rest => t.classes.contains (String.mk rest)
  | '#' :: rest => t.name == String.mk rest
  | _ => t.typeName == pat

/-- Modelled from the spec: selector specificity, type < class < name. -/
def selSpecificity (pat : String) : Nat :=
  match pat.data with
  | '.' :: _ => 1
  | '#' :: _ => 2
  | _ => 0

/-- Modelled from the spec: store one path into the working map — a later
match at equal-or-higher specificity overwrites an earlier entry for the
same path (section 4.2 step 2). -/
def insertOverride (m : List (String × String × Nat)) (p v : String) (spec : Nat) :
    List (String × String × Nat) :=
  match m with
  | [] => [(p, v, spec)]
  | e :: tl =>
    if e.1 = p then (if e.2.2 ≤ spec then (p, v, spec) :: tl else e :: tl)
    else e :: insertOverride tl p v spec

/-- One Sheet-walk step: if the Sel matches the target, merge its Params
into the working map at the Sel's specificity. -/
def resolveStep (t : Target) (m : List (String × String × Nat)) (s : Sel) :
    List (String × String × Nat) :=
  if selMatch s.sel t then
    s.params.foldl (fun m2 kv => insertOverride m2 kv.1 kv.2 (selSpecificity s.sel)) m
  else m

/-- Modelled from the spec: walk the Sheet in listed order, collect the
Params of every Sel matching the target into one working map keyed by path
(section 4.2 steps 1-2). -/
def Sheet.resolve (sh : Sheet) (t : Target) : List (String × String × Nat) :=
  sh.foldl (resolveStep t) []

/-- Modelled from the spec: assign one resolved path on the target;
succeeds iff the target has the field path, replacing its serialized value
(section 4.2 step 3). -/
def Target.setField (t : Target) (p v : String) : Option Target :=
  if p ∈ keysOf t.fields then some { t with fields := insertKV t.fields (p, v) }
  else none

/-- One assignment step of the Apply pass: on success the target is
updated and `changed` set; on failure the path is appended to the failed
list and the pass continues. -/
def applyStep (acc : Target × Bool × List String) (pv : String × String × Nat) :
    Target × Bool × List String :=
  match acc.1.setField pv.1 pv.2.1 with
  | some t2 => (t2, true, acc.2.2)
  | none => (acc.1, acc.2.1, acc.2.2 ++ [pv.1])

/-- Modelled from the spec: `Apply(sheet, target)` (section 4.2): attempt
every resolved path in order; a failure is recorded and processing
continues with the next path. Returns the final target, `changed`, and the
list of failed paths (the aggregated error; the returned error is nil iff
this list is empty). -/
def Sheet.apply (sh : Sheet) (t : Target) : Target × Bool × List String :=
  (Sheet.resolve sh t).foldl applyStep (t, false, [])

theorem setField_none_iff (t : Target) (p v : String) :
    t.setField p v = none ↔ p ∉ keysOf t.fields := by
  unfold Target.setField
  by_cases h : p ∈ keysOf t.fields <;> simp [h]

theorem insertKV_keys_of_mem {α : Type} {m : List (String × α)} {k : String}
    (h : k ∈ keysOf m) (v : α) : keysOf (insertKV m (k, v)) = keysOf m := by
  induction m with
  | nil => cases h
  | cons e tl ih =>
    by_cases he : e.1 = k
    · simp [insertKV, he, keysOf]
    · unfold keysOf at h
      simp only [List.map_cons, List.mem_cons] at h
      rcases h with h | h
      · exact absurd h.symm he
      · have hne : ¬ e.1 = k := he
        simp only [insertKV, if_neg hne, keysOf, List.map_cons]
        rw [show (insertKV tl (k, v)).map Prod.fst = keysOf (insertKV tl (k, v)) from rfl,
          ih h]
        rfl

theorem setField_some_keys {t t2 : Target} {p v : String}
    (h : t.setField p v = some t2) : keysOf t2.fields = keysOf t.fields := by
  unfold Target.setField at h
  by_cases hp : p ∈ keysOf t.fields
  · rw [if_pos hp] at h
    cases h
    exact insertKV_keys_of_mem hp v
  · rw [if_neg hp] at h
    cases h

theorem lookupD_insertKV_self {α : Type} (m : List (String × α)) (k : String) (v : α)
    (d : α) : lookupD (insertKV m (k, v)) k d = v := by
  induction m with
  | nil => simp [insertKV, lookupD]
  | cons e tl ih =>
    by_cases he : e.1 = k
    · simp [insertKV, he, lookupD]
    · simp only [insertKV, if_neg he, lookupD, if_neg he]
      exact ih

theorem lookupD_insertKV_other {α : Type} (m : List (String × α)) {k p : String}
    (hne : p ≠ k) (v : α) (d : α) : lookupD (insertKV m (k, v)) p d = lookupD m p d := by
  have hkp : ¬ k = p := fun he => hne he.symm
  induction m with
  | nil => simp [insertKV, lookupD, hkp]
  | cons e tl ih =>
    by_cases he : e.1 = k
    · have hep : ¬ e.1 = p := by rw [he]; exact hkp
      simp [insertKV, he, lookupD, hep, hkp]
    · simp only [insertKV, if_neg he, lookupD]
      by_cases hep : e.1 = p
      · simp [hep]
      · simp only [if_neg hep]
        exact ih

theorem setField_lookup {t t2 : Target} {p v : String}
    (h : t.setField p v = some t2) : lookupD t2.fields p "" = v := by
  unfold Target.setField at h
  by_cases hp : p ∈ keysOf t.fields
  · rw [if_pos hp] at h
    cases h
    exact lookupD_insertKV_self t.fields p v ""
  · rw [if_neg hp] at h
    cases h

theorem setField_lookup_other {t t2 : Target} {p q v : String}
    (h : t.setField p v = some t2) (hne : q ≠ p) :
    lookupD t2.fields q "" = lookupD t.fields q "" := by
  unfold Target.setField at h
  by_cases hp : p ∈ keysOf t.fields
  · rw [if_pos hp] at h
    cases h
    exact lookupD_insertKV_other t.fields hne v ""
  · rw [if_neg hp] at h
    cases h

end params

namespace params

theorem applyFold_keys (l : List (String × String × Nat)) :
    ∀ (t0 : Target) (ch : Bool) (errs : List String),
      keysOf ((l.foldl applyStep (t0, ch, errs)).1.fields) = keysOf t0.fields := by
  induction l with
  | nil => intro t0 ch errs; rfl
  | cons pv l ih =>
    intro t0 ch errs
    simp only [List.foldl_cons]
    rcases hset : t0.setField pv.1 pv.2.1 with _ | t2
    · simp only [applyStep, hset]
      exact ih t0 ch (errs ++ [pv.1])
    · simp only [applyStep, hset]
      rw [ih t2 true errs, setField_some_keys hset]

theorem applyFold_errs (l : List (String × String × Nat)) :
    ∀ (t0 : Target) (ch : Bool) (errs : List String),
      (l.foldl applyStep (t0, ch, errs)).2.2 =
        errs ++ (l.filter fun pv => !(decide (pv.1 ∈ keysOf t0.fields))).map
          (fun pv => pv.1) := by
  induction l with
  | nil => intro t0 ch errs; simp
  | cons pv l ih =>
    intro t0 ch errs
    simp only [List.foldl_cons]
    by_cases hp : pv.1 ∈ keysOf t0.fields
    · obtain ⟨t2, hset⟩ : ∃ t2, t0.setField pv.1 pv.2.1 = some t2 := by
        unfold Target.setField
        rw [if_pos hp]
        exact ⟨_, rfl⟩
      simp only [applyStep, hset]
      rw [ih t2 true errs, setField_some_keys hset]
      simp [List.filter_cons, hp]
    · have hset : t0.setField pv.1 pv.2.1 = none := (setField_none_iff t0 pv.1 pv.2.1).mpr hp
      simp only [applyStep, hset]
      rw [ih t0 ch (errs ++ [pv.1])]
      simp [List.filter_cons, hp]

theorem applyFold_changed (l : List (String × String × Nat)) :
    ∀ (t0 : Target) (ch : Bool) (errs : List String),
      (l.foldl applyStep (t0, ch, errs)).2.1 =
        (ch || l.any fun pv => decide (pv.1 ∈ keysOf t0.fields)) := by
  induction l with
  | nil => intro t0 ch errs; simp
  | cons pv l ih =>
    intro t0 ch errs
    simp only [List.foldl_cons]
    by_cases hp : pv.1 ∈ keysOf t0.fields
    · obtain ⟨t2, hset⟩ : ∃ t2, t0.setField pv.1 pv.2.1 = some t2 := by
        unfold Target.setField
        rw [if_pos hp]
        exact ⟨_, rfl⟩
      simp only [applyStep, hset]
      rw [ih t2 true errs, setField_some_keys hset]
      simp [List.any_cons, hp]
    · have hset : t0.setField pv.1 pv.2.1 = none := (setField_none_iff t0 pv.1 pv.2.1).mpr hp
      simp only [applyStep, hset]
      rw [ih t0 ch (errs ++ [pv.1])]
      simp [List.any_cons, hp]

theorem applyFold_preserve (l : List (String × String × Nat)) :
    ∀ (t0 : Target) (ch : Bool) (errs : List String) {p : String},
      p ∉ l.map (fun pv => pv.1) →
      lookupD ((l.foldl applyStep (t0, ch, errs)).1.fields) p "" =
        lookupD t0.fields p "" := by
  induction l with
  | nil => intro t0 ch errs p _; rfl
  | cons pv l ih =>
    intro t0 ch errs p hp
    simp only [List.map_cons, List.mem_cons] at hp
    push_neg at hp
    simp only [List.foldl_cons]
    rcases hset : t0.setField pv.1 pv.2.1 with _ | t2
    · simp only [applyStep, hset]
      exact ih t0 ch (errs ++ [pv.1]) hp.2
    · simp only [applyStep, hset]
      rw [ih t2 true errs hp.2, setField_lookup_other hset hp.1]

theorem applyFold_lookup (l : List (String × String × Nat)) :
    ∀ (t0 : Target) (ch : Bool) (errs : List String) {p v : String} {sp : Nat},
      (p, v, sp) ∈ l → (l.map (fun pv => pv.1)).Nodup → p ∈ keysOf t0.fields →
      lookupD ((l.foldl applyStep (t0, ch, errs)).1.fields) p "" = v := by
  induction l with
  | nil => intro t0 ch errs p v sp hm; cases hm
  | cons pv l ih =>
    intro t0 ch errs p v sp hm hnd hk
    simp only [List.map_cons, List.nodup_cons] at hnd
    obtain ⟨hhd, htl⟩ := hnd
    simp only [List.foldl_cons]
    rcases List.mem_cons.mp hm with he | hmem
    · have hp1 : pv.1 = p := by rw [← he]
      have hv : pv.2.1 = v := by rw [← he]
      obtain ⟨t2, hset⟩ : ∃ t2, t0.setField pv.1 pv.2.1 = some t2 := by
        unfold Target.setField
        rw [hp1, if_pos hk]
        exact ⟨_, rfl⟩
      simp only [applyStep, hset]
      have hpnotin : p ∉ l.map (fun pv => pv.1) := hp1 ▸ hhd
      rw [applyFold_preserve l t2 true errs hpnotin]
      have hlook := setField_lookup hset
      rw [hp1, hv] at hlook
      exact hlook
    · have hpl : p ∈ l.map (fun pv => pv.1) :=
        List.mem_map.mpr ⟨(p, v, sp), hmem, rfl⟩
      have hne : p ≠ pv.1 := fun hc => hhd (hc ▸ hpl)
      rcases hset : t0.setField pv.1 pv.2.1 with _ | t2
      · simp only [applyStep, hset]
        exact ih t0 ch (errs ++ [pv.1]) hmem htl hk
      · simp only [applyStep, hset]
        have hk2 : p ∈ keysOf t2.fields := by
          rw [setField_some_keys hset]
          exact hk
        exact ih t2 true errs hmem htl hk2

theorem insertOverride_paths_subset (m : List (String × String × Nat)) (p v : String)
    (s : Nat) : ∀ q ∈ (insertOverride m p v s).map (fun e => e.1),
      q ∈ p :: m.map (fun e => e.1) := by
  induction m with
  | nil => intro q hq; simpa [insertOverride] using hq
  | cons e tl ih =>
    intro q hq
    by_cases he : e.1 = p
    · simp only [insertOverride, if_pos he] at hq
      by_cases hs : e.2.2 ≤ s
      · rw [if_pos hs] at hq
        simp only [List.map_cons, List.mem_cons] at hq ⊢
        tauto
      · rw [if_neg hs] at hq
        simp only [List.map_cons, List.mem_cons] at hq ⊢
        tauto
    · simp only [insertOverride, if_neg he, List.map_cons, List.mem_cons] at hq
      rcases hq with hq | hq
      · simp [hq]
      · have := ih q hq
        simp only [List.mem_cons] at this ⊢
        tauto

theorem insertOverride_paths_nodup {m : List (String × String × Nat)} (p v : String)
    (s : Nat) (h : (m.map (fun e => e.1)).Nodup) :
    ((insertOverride m p v s).map (fun e => e.1)).Nodup := by
  induction m with
  | nil => simp [insertOverride]
  | cons e tl ih =>
    simp only [List.map_cons, List.nodup_cons] at h
    obtain ⟨hhd, htl⟩ := h
    by_cases he : e.1 = p
    · simp only [insertOverride, if_pos he]
      by_cases hs : e.2.2 ≤ s
      · rw [if_pos hs]
        simp only [List.map_cons, List.nodup_cons]
        exact ⟨by rw [← he]; exact hhd, htl⟩
      · rw [if_neg hs]
        simp only [List.map_cons, List.nodup_cons]
        exact ⟨hhd, htl⟩
    · simp only [insertOverride, if_neg he, List.map_cons, List.nodup_cons]
      refine ⟨?_, ih htl⟩
      intro hc
      rcases List.mem_cons.mp (insertOverride_paths_subset tl p v s e.1 hc) with hc2 | hc2
      · exact he hc2
      · exact hhd hc2

theorem foldl_insertOverride_nodup (ps : List (String × String)) (spec : Nat) :
    ∀ m : List (String × String × Nat), (m.map (fun e => e.1)).Nodup →
      ((ps.foldl (fun m2 kv => insertOverride m2 kv.1 kv.2 spec) m).map
        (fun e => e.1)).Nodup := by
  induction ps with
  | nil => intro m h; exact h
  | cons kv ps ih =>
    intro m h
    simp only [List.foldl_cons]
    exact ih _ (insertOverride_paths_nodup kv.1 kv.2 spec h)

theorem resolve_paths_nodup (sh : Sheet) (t : Target) :
    ((Sheet.resolve sh t).map (fun e => e.1)).Nodup := by
  unfold Sheet.resolve
  have hgen : ∀ m : List (String × String × Nat), (m.map (fun e => e.1)).Nodup →
      ((sh.foldl (resolveStep t) m).map (fun e => e.1)).Nodup := by
    induction sh with
    | nil => intro m h; exact h
    | cons s tl ih =>
      intro m h
      simp only [List.foldl_cons]
      apply ih
      unfold resolveStep
      by_cases hm : selMatch s.sel t
      · rw [if_pos hm]
        exact foldl_insertOverride_nodup s.params (selSpecificity s.sel) m h
      · rw [if_neg hm]
        exact h
  exact hgen [] (by simp)

end params

/-- C7 (spec-modelled): in an Apply pass where some resolved paths assign
successfully and others fail, failures do not abort: the pass attempts
every path, the returned aggregated error lists exactly the failed paths
(so the error is nil iff no path failed), `changed` is true exactly when
at least one path was successfully set, and every resolvable path ends up
assigned to its resolved value even when other paths fail. -/
theorem c7_apply_partial_failure (sh : params.Sheet) (t : params.Target) :
    ((params.Sheet.apply sh t).2.2 =
      ((params.Sheet.resolve sh t).filter
        (fun pv => !(decide (pv.1 ∈ params.keysOf t.fields)))).map (fun pv => pv.1)) ∧
    ((params.Sheet.apply sh t).2.1 = true ↔
      ∃ pv ∈ params.Sheet.resolve sh t, pv.1 ∈ params.keysOf t.fields) ∧
    (∀ pv ∈ params.Sheet.resolve sh t, pv.1 ∈ params.keysOf t.fields →
      params.lookupD (params.Sheet.apply sh t).1.fields pv.1 "" = pv.2.1) := by
  refine ⟨?_, ?_, ?_⟩
  · unfold params.Sheet.apply
    simpa using params.applyFold_errs (params.Sheet.resolve sh t) t false []
  · unfold params.Sheet.apply
    rw [params.applyFold_changed (params.Sheet.resolve sh t) t false []]
    simp [List.any_eq_true]
  · intro pv hm hk
    unfold params.Sheet.apply
    exact params.applyFold_lookup (params.Sheet.resolve sh t) t false [] hm
      (params.resolve_paths_nodup sh t) hk

/-- C7 witness: a Sheet with one valid-path Sel (matching by type) and one
invalid-path Sel (matching by class) applied to one target: the valid path
is set, the invalid one is the single reported failure, and the pass
reports `changed`. -/
theorem c7_apply_partial_failure_witness :
    ((params.Sheet.apply
        [⟨"Hidden", "set lrate", [("Learn.Lrate", "0.2")]⟩,
         ⟨".Fast", "bad path", [("Bad.Path", "9")]⟩]
        ⟨"Hidden", "h1", ["Fast"], [("Learn.Lrate", "0.05"), ("Gain", "1")]⟩).2.2 =
      ["Bad.Path"]) ∧
    ((params.Sheet.apply
        [⟨"Hidden", "set lrate", [("Learn.Lrate", "0.2")]⟩,
         ⟨".Fast", "bad path", [("Bad.Path", "9")]⟩]
        ⟨"Hidden", "h1", ["Fast"], [("Learn.Lrate", "0.05"), ("Gain", "1")]⟩).2.1 = true) ∧
    (params.lookupD
        (params.Sheet.apply
          [⟨"Hidden", "set lrate", [("Learn.Lrate", "0.2")]⟩,
           ⟨".Fast", "bad path", [("Bad.Path", "9")]⟩]
          ⟨"Hidden", "h1", ["Fast"], [("Learn.Lrate", "0.05"), ("Gain", "1")]⟩).1.fields
        "Learn.Lrate" "" = "0.2") := by
  refine ⟨?_, ?_, ?_⟩
  · rw [(c7_apply_partial_failure
      [⟨"Hidden", "set lrate", [("Learn.Lrate", "0.2")]⟩,
       ⟨".Fast", "bad path", [("Bad.Path", "9")]⟩]
      ⟨"Hidden", "h1", ["Fast"], [("Learn.Lrate", "0.05"), ("Gain", "1")]⟩).1]
    decide
  · exact (c7_apply_partial_failure
      [⟨"Hidden", "set lrate", [("Learn.Lrate", "0.2")]⟩,
       ⟨".Fast", "bad path", [("Bad.Path", "9")]⟩]
      ⟨"Hidden", "h1", ["Fast"], [("Learn.Lrate", "0.05"), ("Gain", "1")]⟩).2.1.mpr
      ⟨("Learn.Lrate", "0.2", 0), by decide, by decide⟩
  · exact (c7_apply_partial_failure
      [⟨"Hidden", "set lrate", [("Learn.Lrate", "0.2")]⟩,
       ⟨".Fast", "bad path", [("Bad.Path", "9")]⟩]
      ⟨"Hidden", "h1", ["Fast"], [("Learn.Lrate", "0.05"), ("Gain", "1")]⟩).2.2
      ("Learn.Lrate", "0.2", 0) (by decide) (by decide)

/-! ## `netview` package -/

namespace netview

/-- `NetView.RecFastBkwd`: move the view record 10 steps back. State is the
pair (ring length `Data.Ring.Len`, current `RecNo`); the result is
(returned Bool, new `RecNo`). -/
def recFastBkwd (len recNo : Int) : Bool × Int :=
  if recNo = 0 then (false, recNo)
  else
    let r1 : Int := if recNo < 0 then len - 11 else recNo - 11
    let r2 : Int := if r1 < 0 then 0 else r1
    (true, r2)

/-- `NetView.RecBkwd`: move the view record 1 step back. -/
def recBkwd (len recNo : Int) : Bool × Int :=
  if recNo = 0 then (false, recNo)
  else
    let r1 : Int := if recNo < 0 then len - 1 else recNo - 1
    let r2 : Int := if r1 < 0 then 0 else r1
    (true, r2)

/-- `NetView.RecFwd`: move the view record 1 step forward (note that the
first early-return branch also writes `RecNo = Len - 1`). -/
def recFwd (len recNo : Int) : Bool × Int :=
  if recNo ≥ len - 1 then (false, len - 1)
  else if recNo < 0 then (false, recNo)
  else
    let r1 : Int := recNo + 1
    let r2 : Int := if r1 ≥ len - 1 then len - 1 else r1
    (true, r2)

/-- `NetView.RecFastFwd`: move the view record 10 steps forward. -/
def recFastFwd (len recNo : Int) : Bool × Int :=
  if recNo ≥ len - 1 then (false, len - 1)
  else if recNo < 0 then (false, recNo)
  else
    let r1 : Int := recNo + 10
    let r2 : Int := if r1 ≥ len - 1 then len - 1 else r1
    (true, r2)

/-- `NetView.RecTrackLatest`: switch to tracking the latest record (-1). -/
def recTrackLatest (recNo : Int) : Bool × Int :=
  if recNo = -1 then (false, recNo) else (true, -1)

/-- The documented record-number invariant: -1 (track latest) or a valid
index into the ring. -/
def validRec (len recNo : Int) : Prop := recNo = -1 ∨ (0 ≤ recNo ∧ recNo ≤ len - 1)

/-- `netview.Params` (view-rendering parameters). The three float32 fields
are modelled as rationals: `Defaults` only compares them with 0 and
assigns constants, so no floating-point arithmetic is involved. -/
structure Params where
  maxRecs : Int
  unitSize : ℚ
  layNmSize : ℚ
  colorMap : String
  zeroAlpha : ℚ
  deriving DecidableEq, Repr

/-- `Params.Defaults`: assign a default to each field that currently holds
its zero value, in source order (MaxRecs, UnitSize, LayNmSize, ZeroAlpha,
ColorMap). -/
def Params.defaults (nv : Params) : Params :=
  let nv1 := if nv.maxRecs = 0 then { nv with maxRecs := 100 } else nv
  let nv2 := if nv1.unitSize = 0 then { nv1 with unitSize := 9/10 } else nv1
  let nv3 := if nv2.layNmSize = 0 then { nv2 with layNmSize := 1/20 } else nv2
  let nv4 := if nv3.zeroAlpha = 0 then { nv3 with zeroAlpha := 2/5 } else nv3
  if nv4.colorMap = "" then { nv4 with colorMap := "ColdHot" } else nv4

theorem Params.defaults_eq (p : Params) :
    Params.defaults p =
      ⟨if p.maxRecs = 0 then 100 else p.maxRecs,
       if p.unitSize = 0 then 9/10 else p.unitSize,
       if p.layNmSize = 0 then 1/20 else p.layNmSize,
       if p.colorMap = "" then "ColdHot" else p.colorMap,
       if p.zeroAlpha = 0 then 2/5 else p.zeroAlpha⟩ := by
  obtain ⟨m, u, l, c, z⟩ := p
  unfold Params.defaults
  dsimp only
  split_ifs <;> rfl

/-- `Prjn`: the slice of synapse variable names is all `NetVarsList`
consumes of a projection (`SynVarNames`). -/
structure Prjn where
  synVarNames : List String

/-- `Layer`: the unit variable names and projection lists are all
`NetVarsList` and `NetFirstLayPrjn` consume of a layer. -/
structure Layer where
  unitVarNames : List String
  recvPrjns : List Prjn
  sendPrjns : List Prjn

/-- `Network`: an ordered list of layers. -/
structure Network where
  layers : List Layer

/-- The search loop of `NetFirstLayPrjn`: the first layer with a receiving
projection contributes `RecvPrjn(0)`, else a sending layer contributes
`SendPrjn(0)`. -/
def findFirstPrjn : List Layer → Option Prjn
  | [] => none
  | ly :: rest =>
    match ly.recvPrjns with
    | p :: _ => some p
    | [] =>
      match ly.sendPrjns with
      | p :: _ => some p
      | [] => findFirstPrjn rest

/-- `NetFirstLayPrjn`: first layer of the network together with the first
projection found; (nil, nil) for a nil or empty network. -/
def netFirstLayPrjn (net : Option Network) : Option Layer × Option Prjn :=
  match net with
  | none => (none, none)
  | some n =>
    match n.layers with
    | [] => (none, none)
    | lay0 :: _ => (some lay0, findFirstPrjn n.layers)

/-- Go `copy(dst, src)`: overwrite the first `min |src| |dst|` elements of
`dst` with those of `src`. -/
def copyInto (dst src : List String) : List String :=
  src.take (min src.length dst.length) ++ dst.drop (min src.length dst.length)

/-- The write loop of `NetVarsList`: for each synapse variable `v` at
index `pi`, write `"r."+v` at `st+2*pi` and `"s."+v` at `st+2*pi+1`. -/
def fillPairs (st : Nat) (pv : List String) (acc : List String) : List String :=
  match pv with
  | [] => acc
  | v :: rest => fillPairs (st + 2) rest ((acc.set st ("r." ++ v)).set (st + 1) ("s." ++ v))

/-- `NetVarsList`: the unit variables of the first layer (padded to an
even count when `layEven`), then, for each synapse variable of the first
projection, its receiving and sending entries. -/
def netVarsList (net : Option Network) (layEven : Bool) : List String :=
  match net with
  | none => []
  | some n =>
    match n.layers with
    | [] => []
    | _ :: _ =>
      match netFirstLayPrjn net with
      | (none, _) => []
      | (some lay, prjn) =>
        let prjnvars := match prjn with
          | some p => p.synVarNames
          | none => []
        let unvars := lay.unitVarNames
        let ulen := if layEven && unvars.length % 2 != 0 then unvars.length + 1
          else unvars.length
        let tlen := ulen + 2 * prjnvars.length
        fillPairs ulen prjnvars (copyInto (List.replicate tlen "") unvars)

end netview

/-- C8: for a ring with at least one record and a record number that is -1
or a valid index, each record-navigation operation (`RecFastBkwd`,
`RecBkwd`, `RecFwd`, `RecFastFwd`, `RecTrackLatest`) leaves the record
number again in {-1} ∪ [0, Len-1], and returns true exactly when it
changed the record number. -/
theorem c8_rec_navigation (len recNo : Int) (hlen : 1 ≤ len)
    (h : netview.validRec len recNo) :
    (netview.validRec len (netview.recFastBkwd len recNo).2 ∧
      ((netview.recFastBkwd len recNo).1 = true ↔
        (netview.recFastBkwd len recNo).2 ≠ recNo)) ∧
    (netview.validRec len (netview.recBkwd len recNo).2 ∧
      ((netview.recBkwd len recNo).1 = true ↔
        (netview.recBkwd len recNo).2 ≠ recNo)) ∧
    (netview.validRec len (netview.recFwd len recNo).2 ∧
      ((netview.recFwd len recNo).1 = true ↔
        (netview.recFwd len recNo).2 ≠ recNo)) ∧
    (netview.validRec len (netview.recFastFwd len recNo).2 ∧
      ((netview.recFastFwd len recNo).1 = true ↔
        (netview.recFastFwd len recNo).2 ≠ recNo)) ∧
    (netview.validRec len (netview.recTrackLatest recNo).2 ∧
      ((netview.recTrackLatest recNo).1 = true ↔
        (netview.recTrackLatest recNo).2 ≠ recNo)) := by
  have h2 : recNo = -1 ∨ (0 ≤ recNo ∧ recNo ≤ len - 1) := h
  refine ⟨?_, ?_, ?_, ?_, ?_⟩ <;>
    simp only [netview.recFastBkwd, netview.recBkwd, netview.recFwd, netview.recFastFwd,
      netview.recTrackLatest, netview.validRec] <;>
    split_ifs <;>
    constructor <;>
    simp <;>
    omega

/-- C8 witness: the navigation contract at a concrete state (ring length
5, record 3). -/
theorem c8_rec_navigation_witness :
    (netview.validRec 5 (netview.recFastBkwd 5 3).2 ∧
      ((netview.recFastBkwd 5 3).1 = true ↔ (netview.recFastBkwd 5 3).2 ≠ 3)) ∧
    (netview.validRec 5 (netview.recBkwd 5 3).2 ∧
      ((netview.recBkwd 5 3).1 = true ↔ (netview.recBkwd 5 3).2 ≠ 3)) ∧
    (netview.validRec 5 (netview.recFwd 5 3).2 ∧
      ((netview.recFwd 5 3).1 = true ↔ (netview.recFwd 5 3).2 ≠ 3)) ∧
    (netview.validRec 5 (netview.recFastFwd 5 3).2 ∧
      ((netview.recFastFwd 5 3).1 = true ↔ (netview.recFastFwd 5 3).2 ≠ 3)) ∧
    (netview.validRec 5 (netview.recTrackLatest 3).2 ∧
      ((netview.recTrackLatest 3).1 = true ↔ (netview.recTrackLatest 3).2 ≠ 3)) :=
  c8_rec_navigation 5 3 (by decide) (Or.inr (by constructor <;> decide))

/-- C9: `netview.Params.Defaults` assigns a default only to fields holding
their zero value; every field already nonzero is left unchanged, and
calling `Defaults` twice equals calling it once. -/
theorem c9_defaults_zero_only (p : netview.Params) :
    (p.maxRecs = 0 → p.defaults.maxRecs = 100) ∧
    (p.maxRecs ≠ 0 → p.defaults.maxRecs = p.maxRecs) ∧
    (p.unitSize = 0 → p.defaults.unitSize = 9/10) ∧
    (p.unitSize ≠ 0 → p.defaults.unitSize = p.unitSize) ∧
    (p.layNmSize = 0 → p.defaults.layNmSize = 1/20) ∧
    (p.layNmSize ≠ 0 → p.defaults.layNmSize = p.layNmSize) ∧
    (p.zeroAlpha = 0 → p.defaults.zeroAlpha = 2/5) ∧
    (p.zeroAlpha ≠ 0 → p.defaults.zeroAlpha = p.zeroAlpha) ∧
    (p.colorMap = "" → p.defaults.colorMap = "ColdHot") ∧
    (p.colorMap ≠ "" → p.defaults.colorMap = p.colorMap) ∧
    p.defaults.defaults = p.defaults := by
  refine ⟨?_, ?_, ?_, ?_, ?_, ?_, ?_, ?_, ?_, ?_, ?_⟩ <;>
    simp only [netview.Params.defaults_eq] <;>
    first
      | (intro h; simp [h])
      | (simp only [netview.Params.mk.injEq]
         refine ⟨?_, ?_, ?_, ?_, ?_⟩ <;> split_ifs <;> rfl)

/-- C9 witness: `Defaults` at a params value with some zero and some
nonzero fields. -/
theorem c9_defaults_zero_only_witness :
    (netview.Params.defaults ⟨0, 1/2, 0, "", 0⟩).maxRecs = 100 ∧
    (netview.Params.defaults ⟨7, 1/2, 1/20, "Jet", 2/5⟩).maxRecs = 7 ∧
    (netview.Params.defaults ⟨7, 1/2, 1/20, "Jet", 2/5⟩).unitSize = 1/2 :=
  ⟨(c9_defaults_zero_only ⟨0, 1/2, 0, "", 0⟩).1 rfl,
   (c9_defaults_zero_only ⟨7, 1/2, 1/20, "Jet", 2/5⟩).2.1 (by norm_num),
   (c9_defaults_zero_only ⟨7, 1/2, 1/20, "Jet", 2/5⟩).2.2.2.1 (by norm_num)⟩

namespace netview

theorem copyInto_replicate (src : List String) (tlen : Nat) (h : src.length ≤ tlen) :
    copyInto (List.replicate tlen "") src = src ++ List.replicate (tlen - src.length) "" := by
  unfold copyInto
  rw [List.length_replicate, min_eq_left h, List.take_length, List.drop_replicate]

theorem set_append_cons {α : Type} (pre : List α) (x y : α) (tail : List α) :
    (pre ++ x :: tail).set pre.length y = pre ++ y :: tail := by
  induction pre with
  | nil => rfl
  | cons a l ih =>
    show a :: (l ++ x :: tail).set l.length y = a :: (l ++ y :: tail)
    rw [ih]

theorem fillPairs_spec (pv : List String) :
    ∀ pre : List String,
      fillPairs pre.length pv (pre ++ List.replicate (2 * pv.length) "") =
        pre ++ (pv.map fun v => ["r." ++ v, "s." ++ v]).flatten := by
  induction pv with
  | nil => intro pre; simp [fillPairs]
  | cons v rest ih =>
    intro pre
    have hrep : List.replicate (2 * (v :: rest).length) ("" : String) =
        "" :: "" :: List.replicate (2 * rest.length) "" := by
      rw [List.length_cons, show 2 * (rest.length + 1) = (2 * rest.length + 1) + 1 by ring,
        List.replicate_succ, List.replicate_succ]
    rw [hrep]
    show fillPairs pre.length (v :: rest)
        (pre ++ "" :: "" :: List.replicate (2 * rest.length) "") = _
    unfold fillPairs
    rw [set_append_cons pre _ ("r." ++ v) _]
    rw [show pre ++ ("r." ++ v) :: "" :: List.replicate (2 * rest.length) "" =
      (pre ++ ["r." ++ v]) ++ "" :: List.replicate (2 * rest.length) "" by simp]
    rw [show pre.length + 1 = (pre ++ ["r." ++ v]).length by simp]
    rw [set_append_cons (pre ++ ["r." ++ v]) _ ("s." ++ v) _]
    rw [show (pre ++ ["r." ++ v]) ++ ("s." ++ v) :: List.replicate (2 * rest.length) "" =
      (pre ++ ["r." ++ v, "s." ++ v]) ++ List.replicate (2 * rest.length) "" by simp]
    rw [show pre.length + 2 = (pre ++ ["r." ++ v, "s." ++ v]).length by simp]
    rw [ih (pre ++ ["r." ++ v, "s." ++ v])]
    simp

theorem flatten_pairs_length (pv : List String) :
    ((pv.map fun v => ["r." ++ v, "s." ++ v]).flatten).length = 2 * pv.length := by
  induction pv with
  | nil => rfl
  | cons v rest ih =>
    simp only [List.map_cons, List.flatten_cons, List.length_append, ih, List.length_cons]
    simp; omega

theorem netVarsFill_layout (unvars pv : List String) :
    (fun ulen => fillPairs ulen pv (copyInto (List.replicate (ulen + 2 * pv.length) "") unvars))
      (if unvars.length % 2 != 0 then unvars.length + 1 else unvars.length) =
    unvars ++ (if unvars.length % 2 = 1 then [""] else []) ++
      (pv.map fun v => ["r." ++ v, "s." ++ v]).flatten := by
  by_cases hodd : unvars.length % 2 = 1
  · have hcond : (unvars.length % 2 != 0) = true := by simp [hodd]
    simp only [hcond, if_true, if_pos hodd]
    rw [copyInto_replicate unvars (unvars.length + 1 + 2 * pv.length) (by omega)]
    rw [show unvars.length + 1 + 2 * pv.length - unvars.length = 2 * pv.length + 1 by omega]
    rw [List.replicate_succ]
    rw [show unvars ++ "" :: List.replicate (2 * pv.length) "" =
      (unvars ++ [""]) ++ List.replicate (2 * pv.length) "" by simp]
    rw [show unvars.length + 1 = (unvars ++ [""]).length by simp]
    rw [fillPairs_spec pv (unvars ++ [""])]
  · have heven : unvars.length % 2 = 0 := by omega
    have hcond : (unvars.length % 2 != 0) = false := by simp [heven]
    simp only [hcond, Bool.false_eq_true, if_false, if_neg hodd]
    rw [copyInto_replicate unvars (unvars.length + 2 * pv.length) (by omega)]
    rw [show unvars.length + 2 * pv.length - unvars.length = 2 * pv.length by omega]
    rw [fillPairs_spec pv unvars]
    simp

end netview

/-- C10: for a non-nil network with at least one layer, `NetVarsList(net,
true)` lays out the first layer's unit-variable names first, padded with
one empty slot when their count is odd, followed by, for each synapse
variable of the first projection, the "r."-prefixed entry immediately
before the "s."-prefixed entry; its total length is even. -/
theorem c10_netVarsList_layout (lay0 : netview.Layer) (rest : List netview.Layer) :
    netview.netVarsList (some ⟨lay0 :: rest⟩) true =
      lay0.unitVarNames ++
        (if lay0.unitVarNames.length % 2 = 1 then [""] else []) ++
        ((match netview.findFirstPrjn (lay0 :: rest) with
          | some p => p.synVarNames
          | none => []).map fun v => ["r." ++ v, "s." ++ v]).flatten ∧
    (netview.netVarsList (some ⟨lay0 :: rest⟩) true).length % 2 = 0 := by
  have heq : netview.netVarsList (some ⟨lay0 :: rest⟩) true =
      lay0.unitVarNames ++
        (if lay0.unitVarNames.length % 2 = 1 then [""] else []) ++
        ((match netview.findFirstPrjn (lay0 :: rest) with
          | some p => p.synVarNames
          | none => []).map fun v => ["r." ++ v, "s." ++ v]).flatten := by
    exact netview.netVarsFill_layout lay0.unitVarNames
      (match netview.findFirstPrjn (lay0 :: rest) with
        | some p => p.synVarNames
        | none => [])
  refine ⟨heq, ?_⟩
  rw [heq]
  simp only [List.length_append, netview.flatten_pairs_length]
  by_cases hodd : lay0.unitVarNames.length % 2 = 1
  · simp only [if_pos hodd, List.length_cons, List.length_nil]
    omega
  · simp only [if_neg hodd, List.length_nil]
    omega
